import Mathlib

/-!
Verification of the BaIkhtiyar bilingual machine-translation pipeline
(`src/main.py`) against its natural-language specification.

The development shallowly embeds the Python program:
* parsed JSON values become the inductive type `JVal`;
* Python runtime errors (`TypeError`, `KeyError`, `AttributeError`, ...)
  that the program catches become `Except Unit`;
* the text extractor `extract_text_from_json`, the sanitizer
  `clean_response`, the client `translate_segment` and the driver loop of
  `main` become executable Lean functions;
* read/parse failure of an input file is modelled by `Option JVal` being
  `none` at the extractor boundary.
-/

/-- A parsed JSON value, as produced by Python's `json.load`.  Numbers are
modelled as integers (the repository's inputs use integer counters such as
`total_pages`); objects are association lists in insertion order, with the
well-formedness convention of Python dicts that keys are distinct. -/
inductive JVal where
  | str : String → JVal
  | num : Int → JVal
  | bool : Bool → JVal
  | null : JVal
  | arr : List JVal → JVal
  | obj : List (String × JVal) → JVal

mutual

/-- Python `repr()` of a parsed JSON value (mutually recursive over lists
and objects).  `repr` of a string ignores escaping, which the repository's
data never exercises. -/
def pyRepr : JVal → String
  | .str s => "\x27" ++ s ++ "\x27"
  | .num n => toString n
  | .bool b => if b then "True" else "False"
  | .null => "None"
  | .arr l => "[" ++ pyReprList l ++ "]"
  | .obj kvs => "\x7b" ++ pyReprObj kvs ++ "\x7d"

/-- `repr` of the elements of a Python list, comma separated. -/
def pyReprList : List JVal → String
  | [] => ""
  | [x] => pyRepr x
  | x :: y :: xs => pyRepr x ++ ", " ++ pyReprList (y :: xs)

/-- `repr` of the entries of a Python dict, comma separated. -/
def pyReprObj : List (String × JVal) → String
  | [] => ""
  | [(k, v)] => "\x27" ++ k ++ "\x27: " ++ pyRepr v
  | (k, v) :: x :: xs => "\x27" ++ k ++ "\x27: " ++ pyRepr v ++ ", " ++ pyReprObj (x :: xs)

end

/-- Python `str()` on a parsed JSON value: a string is itself, anything else
is its `repr`-style rendering. -/
def pyStr : JVal → String
  | .str s => s
  | v => pyRepr v

/-- `chStarts pat s`: `pat` is literally a prefix of `s` (case sensitive). -/
def chStarts : List Char → List Char → Bool
  | [], _ => true
  | _ :: _, [] => false
  | a :: as, c :: cs => a == c && chStarts as cs

/-- `chContains pat s`: `pat` occurs as a contiguous substring of `s`. -/
def chContains (pat : List Char) : List Char → Bool
  | [] => chStarts pat []
  | s@(_ :: rest) => chStarts pat s || chContains pat rest

/-- Python's `k in v` membership test: key membership for a dict, substring
for a string, element equality for a list; raises `TypeError` on scalars. -/
def pyIn (k : String) : JVal → Except Unit Bool
  | .obj kvs => .ok (List.lookup k kvs).isSome
  | .str s => .ok (chContains k.toList s.toList)
  | .arr l => .ok (l.any fun e => match e with | .str s => s == k | _ => false)
  | _ => .error ()

/-- Python's `v[k]` string subscript: dict lookup (`KeyError` when absent),
`TypeError` on every other value. -/
def pySubscr (v : JVal) (k : String) : Except Unit JVal :=
  match v with
  | .obj kvs =>
    match List.lookup k kvs with
    | some x => .ok x
    | none => .error ()
  | _ => .error ()

/-- Python's `for item in v`: a list yields its elements, a string its
characters, a dict its keys; scalars raise `TypeError`. -/
def pyIterate : JVal → Except Unit (List JVal)
  | .arr l => .ok l
  | .str s => .ok (s.toList.map fun c => .str (String.singleton c))
  | .obj kvs => .ok (kvs.map fun kv => .str kv.1)
  | _ => .error ()

/-- The Case A loop of `extract_text_from_json` (src/main.py lines 31-33):
`for item in pages: if 'content' in item: append(str(item['content']))`.
Both the membership test and the subscript can raise on non-dict items. -/
def caseAPages : List JVal → Except Unit (List String)
  | [] => .ok []
  | item :: rest => do
    let b ← pyIn "content" item
    if b then do
      let c ← pySubscr item "content"
      let tl ← caseAPages rest
      pure (pyStr c :: tl)
    else caseAPages rest

/-- The Case B loop (src/main.py lines 38-42): dict items with a `content`
key contribute `str(item['content'])`, string items contribute themselves,
everything else is skipped.  This loop cannot raise. -/
def caseB : List JVal → List String
  | [] => []
  | item :: rest =>
    match item with
    | .obj ikvs =>
      match List.lookup "content" ikvs with
      | some v => pyStr v :: caseB rest
      | none => caseB rest
    | .str s => s :: caseB rest
    | _ => caseB rest

/-- Lexicographic `<` on character lists by code point (a proper non-empty
extension is greater). -/
def listLtB : List Char → List Char → Bool
  | [], [] => false
  | [], _ :: _ => true
  | _ :: _, [] => false
  | a :: as, b :: bs =>
    if a.val < b.val then true
    else if b.val < a.val then false
    else listLtB as bs

/-- Python string `<`: lexicographic comparison by code point. -/
def strLtB (a b : String) : Bool := listLtB a.toList b.toList

/-- Insert a key into a lexicographically sorted list of keys (helper for
modelling Python's `sorted`). -/
def insertSorted (k : String) : List String → List String
  | [] => [k]
  | x :: xs => if strLtB x k then x :: insertSorted k xs else k :: x :: xs

/-- Python `sorted` on a list of strings (insertion sort; the keys of a dict
are distinct, so any correct comparison sort agrees with it). -/
def sortKeys : List String → List String
  | [] => []
  | k :: ks => insertSorted k (sortKeys ks)

/-- The Case C loop (src/main.py lines 46-49): iterate keys in sorted order,
skip the reserved keys, stringify every other value. -/
def caseC (kvs : List (String × JVal)) : List String :=
  (sortKeys (kvs.map Prod.fst)).filterMap fun k =>
    if k = "total_pages" ∨ k = "content" ∨ k = "document" then none
    else (List.lookup k kvs).map pyStr

/-- Cases B/C/fallthrough for a dict that did not take the nested-document
branch (src/main.py lines 36-49). -/
def extractDictBC (kvs : List (String × JVal)) : List String :=
  match List.lookup "content" kvs with
  | some (.arr items) => caseB items
  | _ => caseC kvs

/-- The `try` body of `extract_text_from_json` (src/main.py lines 25-58)
after a successful parse, with Python runtime errors surfaced as `Except`.
The Case A guard `'pages' in data['document']` and its loop can raise. -/
def extractBody (data : JVal) : Except Unit (List String) :=
  match data with
  | .obj kvs =>
    match List.lookup "document" kvs with
    | some doc =>
      match pyIn "pages" doc with
      | .error e => .error e
      | .ok true => do
        let pages ← pySubscr doc "pages"
        let items ← pyIterate pages
        caseAPages items
      | .ok false => .ok (extractDictBC kvs)
    | none => .ok (extractDictBC kvs)
  | .arr l => .ok (l.map pyStr)
  | v => .ok [pyStr v]

/-- `extract_text_from_json` (src/main.py lines 20-65).  The argument is the
parse result of the input file: `none` models an unreadable file or
malformed JSON (the `json.load` raise), and any runtime error inside the
body is caught by the `except` clauses and yields `[]`. -/
def extract_text_from_json (d : Option JVal) : List String :=
  match d with
  | none => []
  | some v =>
    match extractBody v with
    | .ok l => l
    | .error _ => []

/-!  The response sanitizer `clean_response` (src/main.py lines 68-81).

Every regex used by the sanitizer has the shape
`[^] lit0 .*? lit1 ... .*? litN [.*]` under `re.IGNORECASE | re.MULTILINE`,
so it is embedded by a matcher specialised to that shape: a list of
case-insensitive literals separated by lazy same-line gaps, optionally
anchored at a line start, optionally extended greedily to the end of the
line.  `re.sub(p, "", text)` removes every non-overlapping match, scanning
left to right.  -/

/-- One sanitizer regex: `anchored` is a leading `^` (line start under
`MULTILINE`), `lits` the literal pieces (stored lowercase) separated by
lazy `.*?` gaps, `trail` a trailing greedy `.*`.  `.` never matches a
newline. -/
structure Pat where
  anchored : Bool
  lits : List (List Char)
  trail : Bool

/-- Case-insensitive literal match at the start of the text (the literals
are stored lowercase). -/
def ciStarts : List Char → List Char → Bool
  | [], _ => true
  | _ :: _, [] => false
  | a :: as, c :: cs => a == c.toLower && ciStarts as cs

/-- Number of characters before the first newline (what a greedy `.*`
consumes). -/
def lineLen : List Char → Nat
  | [] => 0
  | c :: s => if c = '\n' then 0 else lineLen s + 1

/-- `scanFor lit cont s` implements a lazy gap followed by `lit` followed by
the remainder of the pattern (`cont`): it tries the earliest position for
`lit` within the current line, backtracking to later positions when the
remainder fails, and returns the total number of characters matched. -/
def scanFor (lit : List Char) (cont : List Char → Option Nat) : List Char → Option Nat
  | [] =>
    if ciStarts lit [] then (cont []).map (lit.length + ·) else none
  | c :: s =>
    match (if ciStarts lit (c :: s) then (cont ((c :: s).drop lit.length)).map (lit.length + ·) else none) with
    | some n => some n
    | none => if c = '\n' then none else (scanFor lit cont s).map (· + 1)

/-- Match a sequence of literals separated by lazy gaps, returning the
number of characters consumed. -/
def seekLits : List (List Char) → List Char → Option Nat
  | [], _ => some 0
  | lit :: rest, s => scanFor lit (fun t => seekLits rest t) s

/-- Length of the regex match of `p` starting exactly at the given text
position (the first literal is not preceded by a gap), or `none`. -/
def patMatchLen (p : Pat) (s : List Char) : Option Nat :=
  match p.lits with
  | [] => none
  | lit :: rest =>
    if ciStarts lit s then
      match seekLits rest (s.drop lit.length) with
      | some n =>
        some (lit.length + n + (if p.trail then lineLen (s.drop (lit.length + n)) else 0))
      | none => none
    else none

/-- `re.sub(p, "", text)` with an explicit fuel argument: scan left to
right, tracking whether the current position is a line start (where `^`
matches under `MULTILINE`), removing every match.  Every match consumes at
least one character, so fuel `s.length` suffices. -/
def subAllFuel (p : Pat) : Nat → List Char → Bool → List Char
  | 0, s, _ => s
  | _ + 1, [], _ => []
  | fuel + 1, c :: s, atStart =>
    if !p.anchored || atStart then
      match patMatchLen p (c :: s) with
      | some n => subAllFuel p fuel ((c :: s).drop n) false
      | none => c :: subAllFuel p fuel s (c == '\n')
    else c :: subAllFuel p fuel s (c == '\n')

/-- `re.sub(p, "", text, flags=re.IGNORECASE | re.MULTILINE)`. -/
def subAll (p : Pat) (s : List Char) : List Char := subAllFuel p s.length s true

/-- Python whitespace for `str.strip()`. -/
def isSpaceChar (c : Char) : Bool :=
  c == ' ' || c == '\t' || c == '\n' || c == '\r' || c == '\x0b' || c == '\x0c'

/-- Python `str.strip()`: drop whitespace from both ends. -/
def stripChars (s : List Char) : List Char :=
  (((s.dropWhile isSpaceChar).reverse.dropWhile isSpaceChar)).reverse

/-- `r"^Here is the.*?translation.*?:"` -/
def pat1 : Pat := ⟨true, ["here is the".toList, "translation".toList, ":".toList], false⟩

/-- `r"^Sure, here is.*?:"` -/
def pat2 : Pat := ⟨true, ["sure, here is".toList, ":".toList], false⟩

/-- `r"^Here is the word-for-word.*?:"` -/
def pat3 : Pat := ⟨true, ["here is the word-for-word".toList, ":".toList], false⟩

/-- `r"^Translation:"` -/
def pat4 : Pat := ⟨true, ["translation:".toList], false⟩

/-- `r"^Here's the translation.*?"` (a trailing lazy `.*?` matches zero
characters, so only the literal is removed). -/
def pat5 : Pat := ⟨true, ["here\x27s the translation".toList], false⟩

/-- `r"Note: The translation is word-for-word.*"` -/
def pat6 : Pat := ⟨false, ["note: the translation is word-for-word".toList], true⟩

/-- `r"Note: I have.*"` -/
def pat7 : Pat := ⟨false, ["note: i have".toList], true⟩

/-- `r"Please let me know.*"` -/
def pat8 : Pat := ⟨false, ["please let me know".toList], true⟩

/-- The sanitizer's patterns, in application order (prefixes then
suffixes). -/
def patterns : List Pat := [pat1, pat2, pat3, pat4, pat5, pat6, pat7, pat8]

/-- One iteration of the sanitizer loop:
`text = re.sub(p, "", text, ...).strip()`. -/
def cleanStep (t : List Char) (p : Pat) : List Char := stripChars (subAll p t)

/-- `clean_response` (src/main.py lines 68-81): empty input maps to `""`,
otherwise each pattern is substituted away in order, stripping after each
substitution. -/
def clean_response (s : String) : String :=
  if s = "" then "" else String.mk (patterns.foldl cleanStep s.toList)

/-!  The translation client `translate_segment` (src/main.py lines 84-114)
and the driver loop of `main` (src/main.py lines 117-183). -/

/-- Python truthiness of a parsed JSON value (`not text`). -/
def pyFalsy : JVal → Bool
  | .str s => s == ""
  | .num n => n == 0
  | .bool b => !b
  | .null => true
  | .arr l => l.isEmpty
  | .obj kvs => kvs.isEmpty

/-- `clean_response` as called on an arbitrary value taken from a JSON
body: a falsy value short-circuits to `""` (src/main.py line 69), a
non-falsy string is sanitized, and any other value raises `TypeError`
inside `re.sub`. -/
def cleanResponseVal (v : JVal) : Except Unit String :=
  if pyFalsy v then .ok ""
  else
    match v with
    | .str s => .ok (clean_response s)
    | _ => .error ()

/-- Python's `body.get('response', default)`: dict lookup with a default;
`AttributeError` when the decoded JSON body is not a dict. -/
def pyGetField (body : JVal) (k : String) (dflt : JVal) : Except Unit JVal :=
  match body with
  | .obj kvs =>
    match List.lookup k kvs with
    | some v => .ok v
    | none => .ok dflt
  | _ => .error ()

/-- `translate_segment` (src/main.py lines 84-114), as a function of the
endpoint's behaviour: `resp` is `.error ()` when the POST, the 2xx status
check (`raise_for_status`) or the JSON decode fails, and `.ok body`
otherwise.  Every exception inside the `try` is caught and reported as
`none` (the failure signal); otherwise the cleaned `response` field is
returned. -/
def translate_segment (resp : Except Unit JVal) : Option String :=
  match resp with
  | .error _ => none
  | .ok body =>
    match pyGetField body "response" (.str "") with
    | .error _ => none
    | .ok r =>
      match cleanResponseVal r with
      | .error _ => none
      | .ok s => some s

/-- The page block appended for a successful non-empty translation
(src/main.py line 177): `f"--- Page {i+1} ---\n{translation}\n\n"`. -/
def pageBlock (n : Nat) (t : String) : String :=
  "--- Page " ++ toString n ++ " ---\n" ++ t ++ "\n\n"

/-- Result of the per-file segment loop: the list of chunks written to the
output file (one element per `f.write` of a page block; the file was
truncated to empty beforehand) and the 0-based indices of the segments for
which `translate_segment` was invoked, in call order. -/
structure DriverOut where
  content : List String
  calls : List Nat
deriving DecidableEq

/-- The segment loop of `main` (src/main.py lines 171-181), starting at
0-based segment index `i` with `rem` segments left.  `tr` abstracts the
translation of the segment at each index (the endpoint is external).  A
truthy (non-empty) result appends a page block; a falsy one appends
nothing, and processing breaks exactly when the result is `None`. -/
def runSegsFrom (tr : Nat → Option String) : Nat → Nat → DriverOut
  | _, 0 => ⟨[], []⟩
  | i, rem + 1 =>
    match tr i with
    | some t =>
      if t = "" then
        ⟨(runSegsFrom tr (i + 1) rem).content, i :: (runSegsFrom tr (i + 1) rem).calls⟩
      else
        ⟨pageBlock (i + 1) t :: (runSegsFrom tr (i + 1) rem).content,
         i :: (runSegsFrom tr (i + 1) rem).calls⟩
    | none => ⟨[], [i]⟩

/-- The whole segment loop for a file with `n` extracted segments. -/
def runSegs (tr : Nat → Option String) (n : Nat) : DriverOut := runSegsFrom tr 0 n

/-- `str.replace(pat, rep)` on character lists (replace every
non-overlapping occurrence, scanning left to right), with fuel; fuel
`s.length` suffices since each step consumes at least one character. -/
def replaceAllFuel (pat rep : List Char) : Nat → List Char → List Char
  | 0, s => s
  | _ + 1, [] => []
  | fuel + 1, c :: s =>
    if chStarts pat (c :: s) && !pat.isEmpty then
      rep ++ replaceAllFuel pat rep fuel (s.drop (pat.length - 1))
    else c :: replaceAllFuel pat rep fuel s

/-- Python `str.replace`. -/
def replaceAll (pat rep s : List Char) : List Char :=
  replaceAllFuel pat rep s.length s

/-- The pattern `'.json'` handed to `str.replace` by the driver. -/
def jsonPat : List Char := ".json".toList

/-- The output filename computed by the driver (src/main.py line 154):
`filename.replace('.json', file_suffix + '.txt')`.  Note that *every*
occurrence of `.json` is replaced, not only a trailing extension. -/
def outputName (filename suffix : String) : String :=
  String.mk (replaceAll jsonPat (suffix ++ ".txt").toList filename.toList)

/-- One input file of a pipeline run: its name in the data folder and its
parse result (`none` models unreadable/malformed JSON).  An unchanged data
folder means the same `FileIn` values on both runs. -/
structure FileIn where
  name : String
  doc : Option JVal

/-- Outcome of processing one file (src/main.py lines 152-181): the updated
set of existing output files, the number of `translate_segment` calls made,
and whether `extract_text_from_json` was invoked for the file. -/
structure FileOutcome where
  fs : List String
  ncalls : Nat
  extracted : Bool
deriving DecidableEq

/-- Per-file behaviour of the driver: skip when the resolved output path
already exists (before any extraction); otherwise extract, skip on zero
segments (no output file is created), and otherwise create the output file
(so it exists from now on) and run the segment loop. -/
def processFile (suffix : String) (trf : String → Nat → Option String)
    (fs : List String) (f : FileIn) : FileOutcome :=
  if outputName f.name suffix ∈ fs then ⟨fs, 0, false⟩
  else
    if extract_text_from_json f.doc = [] then ⟨fs, 0, true⟩
    else
      ⟨outputName f.name suffix :: fs,
       (runSegs (trf f.name) (extract_text_from_json f.doc).length).calls.length, true⟩

/-- One pipeline run over a list of input files, threading the set of
existing output files and summing the number of inference calls. -/
def runPipeline (suffix : String) (trf : String → Nat → Option String) :
    List String → List FileIn → List String × Nat
  | fs, [] => (fs, 0)
  | fs, f :: rest =>
    ((runPipeline suffix trf (processFile suffix trf fs f).fs rest).1,
     (processFile suffix trf fs f).ncalls +
       (runPipeline suffix trf (processFile suffix trf fs f).fs rest).2)

/-!  Spec-side definitions: the behaviours the specification describes, to
be compared with the embedded code. -/

/-- The nested-document extraction as the spec words it: each element of
`pages` that is a mapping with a `content` key contributes that key's
stringified value, in sequence order; every other element contributes
nothing. -/
def nestedSpec (items : List JVal) : List String :=
  items.filterMap fun it =>
    match it with
    | .obj ikvs => (List.lookup "content" ikvs).map pyStr
    | _ => none

/-- Whether a JSON value is a mapping. -/
def isObjB : JVal → Bool
  | .obj _ => true
  | _ => false

/-- A `pages` element the Case A loop handles without raising: either a
mapping (the membership test and the subscript are both safe), or any
other value on which Python's `'content' in item` evaluates to `False`
without raising — a string not containing the substring `content`, or a
sequence not containing the string `'content'`.  Elements outside this
class (numbers, booleans, null, and strings/sequences on which the test
succeeds) raise `TypeError` in the loop. -/
def itemBenign (item : JVal) : Bool :=
  isObjB item ||
    (match pyIn "content" item with
     | .ok false => true
     | _ => false)

/-- The flat-mapping dispatch is reached without raising exactly when any
`document` key's value passes `'pages' in value` returning `False` (for
example a mapping without a `pages` key). -/
def docBenign (kvs : List (String × JVal)) : Bool :=
  match List.lookup "document" kvs with
  | some v =>
    match pyIn "pages" v with
    | .ok false => true
    | _ => false
  | none => true

/-- The mapping does not match the direct-content-list shape (no `content`
key whose value is a sequence). -/
def contentNotList (kvs : List (String × JVal)) : Bool :=
  match List.lookup "content" kvs with
  | some (.arr _) => false
  | _ => true

/-- The flat-mapping extraction as the spec words it: stringified values of
exactly the keys other than the three reserved ones, in lexicographically
sorted key order. -/
def flatSpec (kvs : List (String × JVal)) : List String :=
  (sortKeys (kvs.map Prod.fst)).filterMap fun k =>
    if k = "total_pages" ∨ k = "content" ∨ k = "document" then none
    else (List.lookup k kvs).map pyStr

/-!  Claims about the Document Extractor. -/

/-- A benign `pages` element is a mapping, or a value on which the
membership test returns `False` without raising. -/
theorem itemBenign_elim (item : JVal) (h : itemBenign item = true) :
    (∃ ikvs, item = JVal.obj ikvs) ∨ pyIn "content" item = .ok false := by
  rcases Bool.or_eq_true_iff.mp h with h1 | h1
  · left
    match item, h1 with
    | .obj ikvs, _ => exact ⟨ikvs, rfl⟩
  · right
    cases hp : pyIn "content" item with
    | ok b =>
      cases b with
      | false => rfl
      | true => rw [hp] at h1; cases h1
    | error e => rw [hp] at h1; cases h1

/-- The Case A loop maps a list of benign elements to the stringified
`content` values of the mappings among them that have a `content` key,
without raising; the other benign elements are skipped. -/
theorem caseAPages_benign :
    ∀ items : List JVal, items.all itemBenign = true →
    caseAPages items = .ok (nestedSpec items) := by
  intro items h
  induction items with
  | nil => simp [caseAPages, nestedSpec]
  | cons item rest ih =>
    simp only [List.all_cons, Bool.and_eq_true] at h
    obtain ⟨hb, hrest⟩ := h
    rcases itemBenign_elim item hb with ⟨ikvs, rfl⟩ | hp
    · cases hc : List.lookup "content" ikvs with
      | none =>
        simp [caseAPages, pyIn, hc, nestedSpec, bind, Except.bind, ih hrest]
      | some v =>
        simp [caseAPages, pyIn, hc, pySubscr, nestedSpec, bind, Except.bind,
          pure, Except.pure, ih hrest]
    · have hskip : (match item with
          | JVal.obj ikvs => (List.lookup "content" ikvs).map pyStr
          | _ => (none : Option String)) = none := by
        match item with
        | .obj ikvs =>
          have hfalse : (List.lookup "content" ikvs).isSome = false := by
            simpa [pyIn] using hp
          cases hl : List.lookup "content" ikvs with
          | none => simp [hl]
          | some v => simp [hl] at hfalse
        | .str s => rfl
        | .arr l => rfl
        | .num n => rfl
        | .bool b => rfl
        | .null => rfl
      show (do
          let b ← pyIn "content" item
          if b then do
            let c ← pySubscr item "content"
            let tl ← caseAPages rest
            pure (pyStr c :: tl)
          else caseAPages rest) = .ok (nestedSpec (item :: rest))
      rw [hp]
      simp [bind, Except.bind, nestedSpec, List.filterMap_cons, hskip, ih hrest]

/-- C1 (amended): for a mapping whose `document` key holds a mapping whose
`pages` key holds a sequence, when every element of the sequence is either
a mapping or a value on which Python's `'content' in item` evaluates to
`False` without raising (a string not containing the substring `content`,
a sequence not containing the string `'content'`), extraction returns
exactly the stringified `content` values of the mappings that have a
`content` key, in sequence order, and the other elements contribute
nothing.  (As originally stated — with arbitrary non-mapping elements
tolerated — the claim is false, see the counterexample: an element on
which the membership test raises `TypeError`, such as a number, collapses
the whole extraction to `[]`; so does a non-mapping on which the test
succeeds, via `TypeError` in `item['content']`.) -/
theorem nested_extraction_of_mappings (kvs dkvs : List (String × JVal)) (items : List JVal)
    (h1 : List.lookup "document" kvs = some (.obj dkvs))
    (h2 : List.lookup "pages" dkvs = some (.arr items))
    (h3 : items.all itemBenign = true) :
    extract_text_from_json (some (.obj kvs)) = nestedSpec items := by
  simp [extract_text_from_json, extractBody, h1, pyIn, h2, Option.isSome, pySubscr,
    pyIterate, bind, Except.bind, caseAPages_benign items h3]

/-- C1 witness: a nested document whose pages are a content-bearing
mapping, a mapping lacking a `content` key, and a plain string without the
substring `content` — the latter two contribute nothing. -/
theorem nested_extraction_of_mappings_witness :
    extract_text_from_json (some (.obj [("document", .obj [("pages",
      .arr [.obj [("content", .str "Hallo")], .obj [("n", .num 1)], .str "x"])])])) =
      ["Hallo"] :=
  (nested_extraction_of_mappings
      [("document", .obj [("pages",
        .arr [.obj [("content", .str "Hallo")], .obj [("n", .num 1)], .str "x"])])]
      [("pages", .arr [.obj [("content", .str "Hallo")], .obj [("n", .num 1)], .str "x"])]
      [.obj [("content", .str "Hallo")], .obj [("n", .num 1)], .str "x"]
      rfl rfl (by decide)).trans (by decide)

/-- C1 counterexample: a `pages` sequence holding a mapping with content
`"A"` and a number.  The claim as stated predicts `["A"]`; the code raises
`TypeError` on `'content' in 5` and the extractor returns `[]`. -/
theorem nested_extraction_cx :
    extract_text_from_json (some (.obj [("document", .obj [("pages",
      .arr [.obj [("content", .str "A")], .num 5])])])) = [] ∧
    nestedSpec [.obj [("content", .str "A")], .num 5] = ["A"] := by
  constructor <;> rfl

/-- C7: the extractor is total at its boundary: a read/parse failure yields
`[]`, and any runtime error raised inside the body is caught and also
yields `[]`. -/
theorem extractor_total :
    extract_text_from_json none = [] ∧
    ∀ v e, extractBody v = .error e → extract_text_from_json (some v) = [] :=
  ⟨rfl, fun _ _ h => by simp [extract_text_from_json, h]⟩

/-- C7 witness: a mapping whose `document` value is a number makes the body
raise, and the extractor returns `[]`. -/
theorem extractor_total_witness :
    extractBody (.obj [("document", .num 0)]) = .error () ∧
    extract_text_from_json (some (.obj [("document", .num 0)])) = [] :=
  ⟨rfl, extractor_total.2 _ () rfl⟩

/-- C6 (amended): for a mapping that does not match the direct-content-list
shape and whose `document` key (if any) fails the `'pages' in value`
membership test without raising, extraction returns the stringified values
of exactly the keys other than `total_pages`, `content` and `document`,
ordered by lexicographic sort of the key strings.  (As originally stated —
for *every* mapping not matching the first two shapes — the claim is
false, see the counterexample: a `document` key whose value is a scalar
makes the Case A guard raise `TypeError` and extraction returns `[]`.) -/
theorem flat_extraction (kvs : List (String × JVal))
    (hd : docBenign kvs = true) (hc : contentNotList kvs = true) :
    extract_text_from_json (some (.obj kvs)) = flatSpec kvs := by
  have hbc : extractDictBC kvs = caseC kvs := by
    unfold extractDictBC
    unfold contentNotList at hc
    cases hcl : List.lookup "content" kvs with
    | none => simp
    | some v =>
      rw [hcl] at hc
      cases v <;> simp_all
  have hcf : caseC kvs = flatSpec kvs := rfl
  unfold docBenign at hd
  cases hdl : List.lookup "document" kvs with
  | none => simp [extract_text_from_json, extractBody, hdl, hbc, hcf]
  | some v =>
    rw [hdl] at hd
    cases hp : pyIn "pages" v with
    | error e => simp [hp] at hd
    | ok b =>
      cases b with
      | false => simp [extract_text_from_json, extractBody, hdl, hp, hbc, hcf]
      | true => simp [hp] at hd

/-- C6 witness: the spec's own example,
`{"page_2": "B", "page_1": "A", "total_pages": 2}` yields `["A", "B"]`. -/
theorem flat_extraction_witness :
    extract_text_from_json
      (some (.obj [("page_2", .str "B"), ("page_1", .str "A"), ("total_pages", .num 2)])) =
      ["A", "B"] :=
  (flat_extraction [("page_2", .str "B"), ("page_1", .str "A"), ("total_pages", .num 2)]
      (by decide) (by decide)).trans (by decide)

/-- C6 counterexample: `{"document": 5, "page_1": "A"}` is a mapping
matching neither the nested-document shape nor the direct-content-list
shape, so the claim predicts the flat extraction `["A"]`; the code raises
`TypeError` in the guard `'pages' in data['document']` and returns `[]`. -/
theorem flat_extraction_cx :
    extract_text_from_json (some (.obj [("document", .num 5), ("page_1", .str "A")])) = [] ∧
    flatSpec [("document", .num 5), ("page_1", .str "A")] = ["A"] := by
  constructor <;> rfl

/-!  Claims about the Translation Client. -/

/-- C9 (amended): a 2xx response whose body is a JSON *object* without a
`response` field makes `translate_segment` return the empty string — an
empty success, not the failure signal — so the driver continues with the
next segment.  (For a valid-JSON body that is not an object the claim as
stated is false, see the counterexample: `.get` raises `AttributeError`
and the client returns the failure signal.) -/
theorem missing_response_field (kvs : List (String × JVal))
    (h : List.lookup "response" kvs = none) :
    translate_segment (.ok (.obj kvs)) = some "" := by
  simp [translate_segment, pyGetField, h, cleanResponseVal, pyFalsy]

/-- C9 witness: an object body carrying only unrelated fields. -/
theorem missing_response_field_witness :
    translate_segment (.ok (.obj [("done", .bool true)])) = some "" :=
  missing_response_field [("done", .bool true)] rfl

/-- C9 counterexample: an empty JSON *array* body is valid JSON lacking the
`response` field, yet `translate_segment` returns the failure signal
(`body.get` raises `AttributeError`), not the empty string. -/
theorem missing_response_field_cx :
    translate_segment (.ok (.arr [])) = none ∧ (none : Option String) ≠ some "" := by
  constructor
  · rfl
  · decide

/-!  Claims about the driver's segment loop. -/

/-- Page blocks written for segments `i .. i+k-1` when each of them
translates successfully: the block of a non-empty translation, nothing for
an empty one (the driver prints `Failed.` but writes no block). -/
def selBlocksFrom (tr : Nat → Option String) (i : Nat) : Nat → List String
  | 0 => []
  | k + 1 =>
    (match tr i with
     | some t => if t = "" then [] else [pageBlock (i + 1) t]
     | none => []) ++ selBlocksFrom tr (i + 1) k

/-- One page block per segment `i .. i+k-1` (the shape `selBlocksFrom`
takes when every translation is a non-empty success). -/
def blocksFrom (tr : Nat → Option String) (i : Nat) : Nat → List String
  | 0 => []
  | k + 1 => pageBlock (i + 1) ((tr i).getD "") :: blocksFrom tr (i + 1) k

/-- Splitting the segment loop after `k` non-aborting segments: the loop
writes the selected blocks of the first `k` segments, calls the translator
on `0 .. k-1`, and continues as a fresh loop from index `k`. -/
theorem runSegsFrom_split (tr : Nat → Option String) :
    ∀ k i rem, k ≤ rem → (∀ j, j < k → (tr (i + j)).isSome) →
    runSegsFrom tr i rem =
      ⟨selBlocksFrom tr i k ++ (runSegsFrom tr (i + k) (rem - k)).content,
       (List.range k).map (i + ·) ++ (runSegsFrom tr (i + k) (rem - k)).calls⟩ := by
  intro k
  induction k with
  | zero => intro i rem _ _; simp [selBlocksFrom]
  | succ k ih =>
    intro i rem hk hsome
    obtain ⟨r, rfl⟩ : ∃ r, rem = r + 1 := ⟨rem - 1, by omega⟩
    obtain ⟨t, ht⟩ : ∃ t, tr i = some t := by
      have := hsome 0 (Nat.succ_pos k)
      simpa [Option.isSome_iff_exists] using this
    have hshift : ∀ j, j < k → (tr (i + 1 + j)).isSome := by
      intro j hj
      have := hsome (j + 1) (by omega)
      simpa [Nat.add_assoc, Nat.add_comm 1 j] using this
    have ihr := ih (i + 1) r (by omega) hshift
    have hi1 : i + 1 + k = i + (k + 1) := by omega
    have hcomp : ((i + ·) ∘ Nat.succ) = (i + 1 + ·) := by
      funext j
      simp only [Function.comp_apply]
      omega
    have hmap : (List.range (k + 1)).map (i + ·) =
        i :: (List.range k).map (i + 1 + ·) := by
      rw [List.range_succ_eq_map]
      simp only [List.map_cons, List.map_map, Nat.add_zero, hcomp]
    have hsel : selBlocksFrom tr i (k + 1) =
        (match tr i with
         | some t => if t = "" then [] else [pageBlock (i + 1) t]
         | none => []) ++ selBlocksFrom tr (i + 1) k := rfl
    rw [hsel, ht]
    by_cases hte : t = ""
    · subst hte
      simp [runSegsFrom, ht, ihr, hmap, hi1, Nat.succ_sub_succ]
    · simp [runSegsFrom, ht, hte, ihr, hmap, hi1, Nat.succ_sub_succ]

/-- When every translation in a range is a non-empty success, the selected
blocks are exactly one page block per segment. -/
theorem selBlocksFrom_eq_blocksFrom (tr : Nat → Option String) :
    ∀ k i, (∀ j, j < k → ∃ t, tr (i + j) = some t ∧ t ≠ "") →
    selBlocksFrom tr i k = blocksFrom tr i k := by
  intro k
  induction k with
  | zero => intro i _; rfl
  | succ k ih =>
    intro i h
    obtain ⟨t, ht, hne⟩ := h 0 (Nat.succ_pos k)
    rw [Nat.add_zero] at ht
    have hrest : ∀ j, j < k → ∃ t, tr (i + 1 + j) = some t ∧ t ≠ "" := by
      intro j hj
      obtain ⟨u, hu, hune⟩ := h (j + 1) (by omega)
      exact ⟨u, by rw [← hu]; congr 1; omega, hune⟩
    show (match tr i with
          | some t => if t = "" then [] else [pageBlock (i + 1) t]
          | none => []) ++ selBlocksFrom tr (i + 1) k =
        pageBlock (i + 1) ((tr i).getD "") :: blocksFrom tr (i + 1) k
    rw [ht, ih (i + 1) hrest]
    simp [hne]

/-- Splitting the selected blocks of a range in two. -/
theorem selBlocksFrom_add (tr : Nat → Option String) :
    ∀ a i b, selBlocksFrom tr i (a + b) =
      selBlocksFrom tr i a ++ selBlocksFrom tr (i + a) b := by
  intro a
  induction a with
  | zero => intro i b; simp [selBlocksFrom]
  | succ a ih =>
    intro i b
    have h1 : a + 1 + b = (a + b) + 1 := by omega
    rw [h1]
    show (match tr i with
          | some t => if t = "" then [] else [pageBlock (i + 1) t]
          | none => []) ++ selBlocksFrom tr (i + 1) (a + b) = _
    rw [ih (i + 1) b]
    show _ = ((match tr i with
          | some t => if t = "" then [] else [pageBlock (i + 1) t]
          | none => []) ++ selBlocksFrom tr (i + 1) a) ++ selBlocksFrom tr (i + (a + 1)) b
    rw [List.append_assoc]
    have h2 : i + 1 + a = i + (a + 1) := by omega
    rw [h2]

/-- A loop with at least one remaining segment always calls the translator
on its starting index. -/
theorem runSegsFrom_calls_head (tr : Nat → Option String) (i m : Nat) :
    i ∈ (runSegsFrom tr i (m + 1)).calls := by
  cases ht : tr i with
  | none => simp [runSegsFrom, ht]
  | some t =>
    by_cases hte : t = "" <;> simp [runSegsFrom, ht, hte]

/-- C2: if segments `0 .. k-1` (0-based; the claim's `1 .. k-1` 1-based)
each translate to a non-empty success and segment `k` returns the failure
signal, the output file holds exactly the page blocks of the first `k`
segments — nothing derived from the later ones — and the translator is
called exactly on segments `0 .. k`, never on `k+1 .. n-1`. -/
theorem partial_failure_durability (tr : Nat → Option String) (n k : Nat)
    (hk : k < n)
    (hsucc : ∀ j, j < k → ∃ t, tr j = some t ∧ t ≠ "")
    (hfail : tr k = none) :
    runSegs tr n = ⟨blocksFrom tr 0 k, List.range (k + 1)⟩ := by
  have hsome : ∀ j, j < k → (tr (0 + j)).isSome := by
    intro j hj
    obtain ⟨t, ht, _⟩ := hsucc j hj
    simp [ht]
  have hsplit := runSegsFrom_split tr k 0 n (by omega) hsome
  obtain ⟨m, hm⟩ : ∃ m, n - k = m + 1 := ⟨n - k - 1, by omega⟩
  have htail : runSegsFrom tr (0 + k) (n - k) = ⟨[], [k]⟩ := by
    rw [hm, Nat.zero_add]
    simp [runSegsFrom, hfail]
  have hsel : selBlocksFrom tr 0 k = blocksFrom tr 0 k :=
    selBlocksFrom_eq_blocksFrom tr k 0 (by simpa using hsucc)
  rw [runSegs, hsplit, htail, hsel]
  simp [List.range_succ]

/-- C2 witness: five segments, the first two non-empty successes, the third
failing: the file holds exactly pages 1-2 and the translator was called
exactly on the first three segments. -/
theorem partial_failure_durability_witness :
    runSegs (fun j => if j < 2 then some "T" else none) 5 =
      ⟨blocksFrom (fun j => if j < 2 then some "T" else none) 0 2, List.range 3⟩ :=
  partial_failure_durability (fun j => if j < 2 then some "T" else none) 5 2
    (by omega) (fun j hj => ⟨"T", by simp [hj], by decide⟩) (by decide)

/-- C3: with no abort among segments `0 .. k-1`, a `none` result at segment
`k` stops the loop — the translator is never called past `k` and segment
`k` contributes no block — whereas an empty-string result at `k` keeps the
loop going: segment `k` still contributes no block, and the translator is
called on segment `k+1`. -/
theorem abort_discrimination (tr : Nat → Option String) (n k : Nat)
    (hk : k + 1 < n)
    (hpre : ∀ j, j < k → (tr j).isSome) :
    (tr k = none → runSegs tr n = ⟨selBlocksFrom tr 0 k, List.range (k + 1)⟩) ∧
    (tr k = some "" →
      (runSegs tr n).content =
        selBlocksFrom tr 0 k ++ (runSegsFrom tr (k + 1) (n - (k + 1))).content ∧
      (k + 1) ∈ (runSegs tr n).calls) := by
  have hpre0 : ∀ j, j < k → (tr (0 + j)).isSome := by simpa using hpre
  constructor
  · intro hfail
    have hsplit := runSegsFrom_split tr k 0 n (by omega) hpre0
    obtain ⟨m, hm⟩ : ∃ m, n - k = m + 1 := ⟨n - k - 1, by omega⟩
    have htail : runSegsFrom tr (0 + k) (n - k) = ⟨[], [k]⟩ := by
      rw [hm, Nat.zero_add]
      simp [runSegsFrom, hfail]
    rw [runSegs, hsplit, htail]
    simp [List.range_succ]
  · intro hempty
    have hpre1 : ∀ j, j < k + 1 → (tr (0 + j)).isSome := by
      intro j hj
      rcases Nat.lt_succ_iff_lt_or_eq.mp hj with h | h
      · exact hpre0 j h
      · subst h; simp [hempty]
    have hsplit := runSegsFrom_split tr (k + 1) 0 n (by omega) hpre1
    obtain ⟨m, hm⟩ : ∃ m, n - (k + 1) = m + 1 := ⟨n - (k + 1) - 1, by omega⟩
    have hself : selBlocksFrom tr 0 (k + 1) = selBlocksFrom tr 0 k := by
      rw [selBlocksFrom_add tr k 0 1]
      show _ ++ ((match tr (0 + k) with
          | some t => if t = "" then [] else [pageBlock (0 + k + 1) t]
          | none => []) ++ selBlocksFrom tr (0 + k + 1) 0) = _
      rw [Nat.zero_add, hempty]
      simp [selBlocksFrom]
    constructor
    · rw [runSegs, hsplit, hself]
      simp [Nat.zero_add]
    · rw [runSegs, hsplit]
      have := runSegsFrom_calls_head tr (0 + (k + 1)) m
      rw [← hm] at this
      simp only [Nat.zero_add] at this ⊢
      exact List.mem_append.mpr (Or.inr this)

/-- C3 witness: both discriminations at segment index 1 of a three-segment
file — `none` stops the loop (calls = segments 0,1 only), the empty string
does not (segment 2 is still called); neither writes a block for
segment 1. -/
theorem abort_discrimination_witness :
    (runSegs (fun j => if j = 0 then some "A" else none) 3 =
      ⟨selBlocksFrom (fun j => if j = 0 then some "A" else none) 0 1, List.range 2⟩) ∧
    ((runSegs (fun j => if j = 1 then some "" else some "A") 3).content =
        selBlocksFrom (fun j => if j = 1 then some "" else some "A") 0 1 ++
          (runSegsFrom (fun j => if j = 1 then some "" else some "A") 2 1).content ∧
      2 ∈ (runSegs (fun j => if j = 1 then some "" else some "A") 3).calls) :=
  ⟨(abort_discrimination (fun j => if j = 0 then some "A" else none) 3 1 (by omega)
      (fun j hj => by interval_cases j; simp)).1 (by decide),
   (abort_discrimination (fun j => if j = 1 then some "" else some "A") 3 1 (by omega)
      (fun j hj => by interval_cases j; simp)).2 (by decide)⟩

/-- C10: when no segment aborts, the output is exactly one block per
non-empty successful segment, headed by that segment's 1-indexed position
in the extracted sequence — empty translations leave gaps in the page
numbers while later segments keep their positions. -/
theorem page_numbering (tr : Nat → Option String) (n : Nat)
    (hall : ∀ j, j < n → (tr j).isSome) :
    (runSegs tr n).content = selBlocksFrom tr 0 n := by
  have hall0 : ∀ j, j < n → (tr (0 + j)).isSome := by simpa using hall
  have hsplit := runSegsFrom_split tr n 0 n (by omega) hall0
  rw [runSegs, hsplit]
  simp [runSegsFrom]

/-- C10 witness: three segments whose middle translation is empty — the
file shows page 1 and page 3, skipping page 2. -/
theorem page_numbering_witness :
    (runSegs (fun j => if j = 1 then some "" else some "W") 3).content =
      selBlocksFrom (fun j => if j = 1 then some "" else some "W") 0 3 ∧
    selBlocksFrom (fun j => if j = 1 then some "" else some "W") 0 3 =
      [pageBlock 1 "W", pageBlock 3 "W"] :=
  ⟨page_numbering (fun j => if j = 1 then some "" else some "W") 3
      (fun j hj => by interval_cases j <;> simp),
   by decide⟩

/-!  Claims about output naming. -/

/-- The trailing characters of `jsonPat` are concrete, so a prefix match of
`jsonPat` against a text with fewer than five characters before `jsonPat`
itself is impossible (`jsonPat` has no non-trivial border). -/
theorem chStarts_append_of_le :
    ∀ (pat s t : List Char), pat.length ≤ s.length →
    chStarts pat (s ++ t) = chStarts pat s := by
  intro pat
  induction pat with
  | nil => intro s t _; rfl
  | cons a as ih =>
    intro s t hlen
    match s with
    | [] => simp at hlen
    | c :: cs =>
      show (a == c && chStarts as (cs ++ t)) = (a == c && chStarts as cs)
      rw [ih cs t (by simpa using hlen)]

/-- `replaceAllFuel` leaves the empty text alone at any fuel. -/
theorem replaceAllFuel_nil (pat rep : List Char) :
    ∀ fuel, replaceAllFuel pat rep fuel [] = [] := by
  intro fuel
  cases fuel <;> rfl

/-- Replacing `jsonPat` in `stem ++ jsonPat` when the stem contains no
occurrence of `.json`: exactly the final occurrence is rewritten. -/
theorem replaceAllFuel_stem (rep : List Char) :
    ∀ (stem : List Char) (fuel : Nat), chContains jsonPat stem = false →
    stem.length + 1 ≤ fuel →
    replaceAllFuel jsonPat rep fuel (stem ++ jsonPat) = stem ++ rep := by
  intro stem
  induction stem with
  | nil =>
    intro fuel _ hfuel
    obtain ⟨f, rfl⟩ : ∃ f, fuel = f + 1 := ⟨fuel - 1, by omega⟩
    show replaceAllFuel jsonPat rep (f + 1) jsonPat = rep
    have hself : ∀ l : List Char, chStarts l l = true := by
      intro l
      induction l with
      | nil => rfl
      | cons c cs ihc => simp [chStarts, ihc]
    simp [jsonPat, replaceAllFuel, hself, replaceAllFuel_nil]
  | cons c stem ih =>
    intro fuel hocc hfuel
    obtain ⟨f, rfl⟩ : ∃ f, fuel = f + 1 := ⟨fuel - 1, by omega⟩
    have hocc' : chContains jsonPat stem = false := by
      have : chContains jsonPat (c :: stem) =
          (chStarts jsonPat (c :: stem) || chContains jsonPat stem) := rfl
      rw [this] at hocc
      exact (Bool.or_eq_false_iff.mp hocc).2
    have hstart : chStarts jsonPat (c :: stem) = false := by
      have : chContains jsonPat (c :: stem) =
          (chStarts jsonPat (c :: stem) || chContains jsonPat stem) := rfl
      rw [this] at hocc
      exact (Bool.or_eq_false_iff.mp hocc).1
    have hguard : chStarts jsonPat ((c :: stem) ++ jsonPat) = false := by
      match stem, hocc', hstart with
      | [], _, hs => simp [jsonPat, chStarts]
      | [c2], _, hs => simp [jsonPat, chStarts]
      | [c2, c3], _, hs => simp [jsonPat, chStarts]
      | [c2, c3, c4], _, hs => simp [jsonPat, chStarts]
      | c2 :: c3 :: c4 :: c5 :: rest, _, hs =>
        have hlen : jsonPat.length ≤ (c :: c2 :: c3 :: c4 :: c5 :: rest).length := by
          have h5 : jsonPat.length = 5 := rfl
          simp only [List.length_cons, h5]
          omega
        rw [chStarts_append_of_le jsonPat _ jsonPat hlen]
        exact hs
    show replaceAllFuel jsonPat rep (f + 1) (c :: (stem ++ jsonPat)) = c :: (stem ++ rep)
    have hred : replaceAllFuel jsonPat rep (f + 1) (c :: (stem ++ jsonPat)) =
        c :: replaceAllFuel jsonPat rep f (stem ++ jsonPat) := by
      have hg : chStarts jsonPat (c :: (stem ++ jsonPat)) = false := hguard
      simp [replaceAllFuel, hg]
    rw [hred, ih f hocc' (by simp at hfuel; omega)]

/-- C8 (amended): for input filenames `<stem>.json` in which `.json` does
not occur inside the stem, the output file is named
`<stem><profile-suffix>.txt`.  (For every filename ending in `.json`, as
originally stated, the claim is false, see the counterexample: the code
uses `str.replace`, which rewrites *every* occurrence of `.json`, so
`a.json.json` becomes `a<suffix>.txt<suffix>.txt`, not
`a.json<suffix>.txt`.) -/
theorem output_naming (stem suffix : String)
    (h : chContains jsonPat stem.toList = false) :
    outputName (stem ++ ".json") suffix = stem ++ suffix ++ ".txt" := by
  unfold outputName replaceAll
  have hlist : (stem ++ ".json").toList = stem.toList ++ jsonPat := by
    simp [jsonPat, String.toList]
  rw [hlist]
  have hfuel : stem.toList.length + 1 ≤ (stem.toList ++ jsonPat).length := by
    rw [List.length_append]
    have h5 : jsonPat.length = 5 := rfl
    omega
  rw [replaceAllFuel_stem _ stem.toList _ h hfuel]
  have hrep : (suffix ++ ".txt").toList = suffix.toList ++ ".txt".toList := by
    simp [String.toList]
  rw [hrep, ← List.append_assoc]
  show String.mk ((stem.toList ++ suffix.toList) ++ ".txt".toList) = stem ++ suffix ++ ".txt"
  have : ∀ a b : String, String.mk (a.toList ++ b.toList) = a ++ b := by
    intro a b
    cases a
    cases b
    rfl
  rw [← this stem suffix]
  exact this (String.mk (stem.toList ++ suffix.toList)) ".txt"

/-- C8 witness: the ordinary single-extension case. -/
theorem output_naming_witness :
    chContains jsonPat "doc1".toList = false ∧
    outputName ("doc1" ++ ".json") "_en" = "doc1" ++ "_en" ++ ".txt" :=
  ⟨by decide, output_naming "doc1" "_en" (by decide)⟩

/-- C8 counterexample: `a.json.json` ends in `.json` with stem `a.json`,
but the code produces `a_en.txt_en.txt`, not `a.json_en.txt`. -/
theorem output_naming_cx :
    outputName "a.json.json" "_en" = "a_en.txt_en.txt" ∧
    "a_en.txt_en.txt" ≠ "a.json" ++ "_en" ++ ".txt" := by
  constructor
  · rfl
  · decide

/-!  The resumability claim: two runs over an unchanged data folder. -/

/-- Processing a file never removes an existing output marker. -/
theorem processFile_mem_mono (suffix : String) (trf : String → Nat → Option String)
    (fs : List String) (f : FileIn) (x : String) (h : x ∈ fs) :
    x ∈ (processFile suffix trf fs f).fs := by
  unfold processFile
  by_cases h1 : outputName f.name suffix ∈ fs
  · simp [h1, h]
  · by_cases h2 : extract_text_from_json f.doc = []
    · simp [h1, h2, h]
    · simp [h1, h2, h]

/-- A whole run never removes an existing output marker. -/
theorem runPipeline_mem_mono (suffix : String) (trf : String → Nat → Option String) :
    ∀ (files : List FileIn) (fs : List String) (x : String), x ∈ fs →
    x ∈ (runPipeline suffix trf fs files).1 := by
  intro files
  induction files with
  | nil => intro fs x h; exact h
  | cons f rest ih =>
    intro fs x h
    exact ih _ x (processFile_mem_mono suffix trf fs f x h)

/-- After a file is processed, either its output exists or its extraction
is empty. -/
theorem processFile_post (suffix : String) (trf : String → Nat → Option String)
    (fs : List String) (f : FileIn) :
    outputName f.name suffix ∈ (processFile suffix trf fs f).fs ∨
    extract_text_from_json f.doc = [] := by
  unfold processFile
  by_cases h1 : outputName f.name suffix ∈ fs
  · left; simp [h1]
  · by_cases h2 : extract_text_from_json f.doc = []
    · right; exact h2
    · left; simp [h1, h2]

/-- After a run, every visited file either has its output in place or
extracts to zero segments. -/
theorem runPipeline_establishes (suffix : String) (trf : String → Nat → Option String) :
    ∀ (files : List FileIn) (fs : List String) (f : FileIn), f ∈ files →
    outputName f.name suffix ∈ (runPipeline suffix trf fs files).1 ∨
    extract_text_from_json f.doc = [] := by
  intro files
  induction files with
  | nil => intro fs f h; cases h
  | cons g rest ih =>
    intro fs f h
    rcases List.mem_cons.mp h with h | h
    · subst h
      rcases processFile_post suffix trf fs f with h1 | h1
      · left
        exact runPipeline_mem_mono suffix trf rest _ _ h1
      · right; exact h1
    · exact ih _ f h

/-- A run over files that all have their output in place or extract to zero
segments performs zero inference calls and leaves the marker set
unchanged. -/
theorem runPipeline_zero (suffix : String) (trf : String → Nat → Option String) :
    ∀ (files : List FileIn) (fs : List String),
    (∀ f ∈ files, outputName f.name suffix ∈ fs ∨ extract_text_from_json f.doc = []) →
    (runPipeline suffix trf fs files).2 = 0 ∧ (runPipeline suffix trf fs files).1 = fs := by
  intro files
  induction files with
  | nil => intro fs _; exact ⟨rfl, rfl⟩
  | cons f rest ih =>
    intro fs h
    have hstep : processFile suffix trf fs f = ⟨fs, 0, true⟩ ∨
        processFile suffix trf fs f = ⟨fs, 0, false⟩ := by
      rcases h f (List.mem_cons_self f rest) with h1 | h1
      · right; unfold processFile; simp [h1]
      · unfold processFile
        by_cases h2 : outputName f.name suffix ∈ fs
        · right; simp [h2]
        · left; simp [h2, h1]
    have hrest : ∀ g ∈ rest, outputName g.name suffix ∈ fs ∨
        extract_text_from_json g.doc = [] :=
      fun g hg => h g (List.mem_cons_of_mem f hg)
    rcases hstep with hs | hs <;>
      simp [runPipeline, hs, (ih fs hrest).1, (ih fs hrest).2]

/-- C5: after one completed run, a second run with the same model profile
over the unchanged data folder performs zero inference calls; and any file
whose resolved output path already exists is skipped outright — no
extraction, no translation, no state change. -/
theorem resumability (suffix : String) (trf1 trf2 : String → Nat → Option String)
    (fs0 : List String) (files : List FileIn) :
    (runPipeline suffix trf2 (runPipeline suffix trf1 fs0 files).1 files).2 = 0 ∧
    ∀ (fs : List String) (f : FileIn), outputName f.name suffix ∈ fs →
      processFile suffix trf2 fs f = ⟨fs, 0, false⟩ := by
  constructor
  · exact (runPipeline_zero suffix trf2 files _
      (fun f hf => runPipeline_establishes suffix trf1 files fs0 f hf)).1
  · intro fs f h
    unfold processFile
    simp [h]

/-!  The sanitizer idempotence claim.

`clean_response` is *not* idempotent in general: `re.sub` only removes
matches anchored at line starts (for the caret patterns), so removing one
occurrence can expose a fresh occurrence at the start of the text that only
a second application removes.  Idempotence does hold on trigger-free text:
if no pattern's leading literal occurs in the input, every substitution is
the identity and the sanitizer reduces to `strip`, which is idempotent. -/

/-- The leading literal of a sanitizer pattern. -/
def headLit (p : Pat) : List Char := p.lits.headD []

/-- Case-insensitive occurrence of a (lowercase) literal anywhere in the
text. -/
def ciContains (lit : List Char) : List Char → Bool
  | [] => ciStarts lit []
  | s@(_ :: rest) => ciStarts lit s || ciContains lit rest

/-- Text free of every sanitizer trigger: no pattern's leading literal
occurs anywhere in it, case-insensitively. -/
def noTriggers (t : List Char) : Bool :=
  patterns.all fun p => !ciContains (headLit p) t

/-- The patterns after the first one. -/
def restPats : List Pat := [pat2, pat3, pat4, pat5, pat6, pat7, pat8]

/-- `patterns` decomposed for the fold. -/
theorem patterns_eq : patterns = pat1 :: restPats := rfl

/-- Every sanitizer pattern has a non-empty literal list headed by its
`headLit`. -/
theorem patterns_lits_head : ∀ p ∈ patterns, p.lits = headLit p :: p.lits.tail := by
  decide

/-- If a literal occurs nowhere, it does not occur at the front. -/
theorem ciStarts_false_of_ciContains_false (lit s : List Char)
    (h : ciContains lit s = false) : ciStarts lit s = false := by
  cases s with
  | nil => exact h
  | cons c rest =>
    have he : ciContains lit (c :: rest) =
        (ciStarts lit (c :: rest) || ciContains lit rest) := rfl
    rw [he] at h
    exact (Bool.or_eq_false_iff.mp h).1

/-- If a literal occurs nowhere, it occurs nowhere in the tail either. -/
theorem ciContains_tail_false (lit : List Char) (c : Char) (rest : List Char)
    (h : ciContains lit (c :: rest) = false) : ciContains lit rest = false := by
  have he : ciContains lit (c :: rest) =
      (ciStarts lit (c :: rest) || ciContains lit rest) := rfl
  rw [he] at h
  exact (Bool.or_eq_false_iff.mp h).2

/-- A pattern whose leading literal does not start here does not match
here. -/
theorem patMatchLen_eq_none (p : Pat) (lit : List Char) (rest : List (List Char))
    (hl : p.lits = lit :: rest) (s : List Char)
    (h : ciStarts lit s = false) : patMatchLen p s = none := by
  unfold patMatchLen
  rw [hl]
  simp [h]

/-- Substitution is the identity on text in which the pattern's leading
literal never occurs. -/
theorem subAllFuel_id (p : Pat) (lit : List Char) (rest : List (List Char))
    (hl : p.lits = lit :: rest) :
    ∀ fuel s b, ciContains lit s = false → subAllFuel p fuel s b = s := by
  intro fuel
  induction fuel with
  | zero => intro s b _; rfl
  | succ fuel ih =>
    intro s b h
    cases s with
    | nil => rfl
    | cons c cs =>
      have h1 : ciStarts lit (c :: cs) = false := ciStarts_false_of_ciContains_false _ _ h
      have h2 : ciContains lit cs = false := ciContains_tail_false lit c cs h
      have hm : patMatchLen p (c :: cs) = none := patMatchLen_eq_none p lit rest hl _ h1
      rcases Bool.eq_false_or_eq_true (!p.anchored || b) with hb | hb <;>
        simp [subAllFuel, hb, hm, ih cs (c == '\n') h2]

/-- A front occurrence survives extending the text on the right. -/
theorem ciStarts_append (lit : List Char) :
    ∀ x y, ciStarts lit x = true → ciStarts lit (x ++ y) = true := by
  induction lit with
  | nil => intro x y _; rfl
  | cons a as ih =>
    intro x y h
    cases x with
    | nil => cases h
    | cons c cs =>
      have hp : (a == c.toLower) = true ∧ ciStarts as cs = true := by
        simpa [ciStarts] using h
      show (a == c.toLower && ciStarts as (cs ++ y)) = true
      simp [hp.1, ih cs y hp.2]

/-- The empty literal occurs in every text. -/
theorem ciContains_nil_pat : ∀ s : List Char, ciContains [] s = true := by
  intro s
  cases s <;> simp [ciContains, ciStarts]

/-- An occurrence survives extending the text on the right. -/
theorem ciContains_append_right (lit : List Char) :
    ∀ m r, ciContains lit m = true → ciContains lit (m ++ r) = true := by
  intro m
  induction m with
  | nil =>
    intro r h
    have hnil : lit = [] := by
      cases lit with
      | nil => rfl
      | cons a as => cases h
    subst hnil
    exact ciContains_nil_pat r
  | cons c m' ih =>
    intro r h
    have he : ciContains lit (c :: m') =
        (ciStarts lit (c :: m') || ciContains lit m') := rfl
    rw [he] at h
    rcases Bool.or_eq_true_iff.mp h with h1 | h1
    · have h2 : ciStarts lit (c :: (m' ++ r)) = true := by
        have := ciStarts_append lit (c :: m') r h1
        simpa using this
      show (ciStarts lit (c :: (m' ++ r)) || ciContains lit (m' ++ r)) = true
      simp [h2]
    · show (ciStarts lit (c :: (m' ++ r)) || ciContains lit (m' ++ r)) = true
      simp [ih r h1]

/-- An occurrence survives extending the text on the left. -/
theorem ciContains_append_left (lit : List Char) :
    ∀ l t, ciContains lit t = true → ciContains lit (l ++ t) = true := by
  intro l
  induction l with
  | nil => intro t h; exact h
  | cons c l' ih =>
    intro t h
    show (ciStarts lit (c :: (l' ++ t)) || ciContains lit (l' ++ t)) = true
    simp [ih t h]

/-- Dropping trailing whitespace, as the second phase of `strip`. -/
def rdropSpace (l : List Char) : List Char :=
  (l.reverse.dropWhile isSpaceChar).reverse

/-- `dropWhile` is idempotent. -/
theorem dropWhile_isSpace_idem :
    ∀ l : List Char,
    List.dropWhile isSpaceChar (List.dropWhile isSpaceChar l) =
      List.dropWhile isSpaceChar l := by
  intro l
  induction l with
  | nil => rfl
  | cons c cs ih =>
    by_cases hq : isSpaceChar c = true
    · simp [List.dropWhile_cons, hq, ih]
    · simp [List.dropWhile_cons, hq]

/-- `rdropSpace` is idempotent. -/
theorem rdropSpace_idem (l : List Char) : rdropSpace (rdropSpace l) = rdropSpace l := by
  unfold rdropSpace
  rw [List.reverse_reverse, dropWhile_isSpace_idem]

/-- `rdropSpace l` is the prefix of `l` before its trailing whitespace. -/
theorem rdropSpace_decomp (l : List Char) :
    l = rdropSpace l ++ (l.reverse.takeWhile isSpaceChar).reverse := by
  have e : l.reverse.takeWhile isSpaceChar ++ l.reverse.dropWhile isSpaceChar = l.reverse :=
    List.takeWhile_append_dropWhile isSpaceChar l.reverse
  have e2 := congrArg List.reverse e
  simp only [List.reverse_append, List.reverse_reverse] at e2
  exact e2.symm

/-- `stripChars` deletes a whitespace prefix and suffix of the text. -/
theorem stripChars_infix (s : List Char) :
    ∃ l r, s = l ++ (stripChars s ++ r) := by
  refine ⟨s.takeWhile isSpaceChar,
    ((s.dropWhile isSpaceChar).reverse.takeWhile isSpaceChar).reverse, ?_⟩
  have e1 : s.takeWhile isSpaceChar ++ s.dropWhile isSpaceChar = s :=
    List.takeWhile_append_dropWhile isSpaceChar s
  have e2 : s.dropWhile isSpaceChar =
      stripChars s ++ ((s.dropWhile isSpaceChar).reverse.takeWhile isSpaceChar).reverse :=
    rdropSpace_decomp (s.dropWhile isSpaceChar)
  calc s = s.takeWhile isSpaceChar ++ s.dropWhile isSpaceChar := e1.symm
    _ = _ := by rw [← e2]

/-- `dropWhile` never lengthens a list. -/
theorem length_dropWhile_isSpace_le :
    ∀ l : List Char, (List.dropWhile isSpaceChar l).length ≤ l.length := by
  intro l
  induction l with
  | nil => exact Nat.le_refl 0
  | cons c cs ih =>
    by_cases hq : isSpaceChar c = true
    · simp only [List.dropWhile_cons, hq, if_pos]
      exact Nat.le_succ_of_le ih
    · simp [List.dropWhile_cons, hq]

/-- A text already free of leading whitespace stays so after dropping its
trailing whitespace. -/
theorem dropWhile_rdropSpace (t : List Char)
    (ht : t.dropWhile isSpaceChar = t) :
    (rdropSpace t).dropWhile isSpaceChar = rdropSpace t := by
  cases hr : rdropSpace t with
  | nil => rfl
  | cons c u =>
    have hq : isSpaceChar c = false := by
      by_contra hc
      rw [Bool.not_eq_false] at hc
      have hpre := rdropSpace_decomp t
      rw [hr] at hpre
      rw [hpre, List.cons_append, List.dropWhile_cons, if_pos hc] at ht
      have hlen := congrArg List.length ht
      have hle := length_dropWhile_isSpace_le
        (u ++ (t.reverse.takeWhile isSpaceChar).reverse)
      rw [List.length_cons] at hlen
      omega
    simp [List.dropWhile_cons, hq]

/-- Python `strip` is idempotent. -/
theorem stripChars_idem (s : List Char) : stripChars (stripChars s) = stripChars s := by
  have hts : (s.dropWhile isSpaceChar).dropWhile isSpaceChar = s.dropWhile isSpaceChar :=
    dropWhile_isSpace_idem _
  have h1 : (rdropSpace (s.dropWhile isSpaceChar)).dropWhile isSpaceChar =
      rdropSpace (s.dropWhile isSpaceChar) := dropWhile_rdropSpace _ hts
  show rdropSpace ((rdropSpace (s.dropWhile isSpaceChar)).dropWhile isSpaceChar) =
    rdropSpace (s.dropWhile isSpaceChar)
  rw [h1, rdropSpace_idem]

/-- Trigger-freedom survives stripping. -/
theorem noTriggers_stripChars (t : List Char) (h : noTriggers t = true) :
    noTriggers (stripChars t) = true := by
  simp only [noTriggers, List.all_eq_true, Bool.not_eq_true'] at h ⊢
  intro p hp
  by_contra hc
  rw [Bool.not_eq_false] at hc
  obtain ⟨l, r, he⟩ := stripChars_infix t
  have habs : ciContains (headLit p) t = true := by
    rw [he]
    exact ciContains_append_left _ l _ (ciContains_append_right _ _ r hc)
  rw [h p hp] at habs
  cases habs

/-- On trigger-free, already-stripped text the whole sanitizer loop is the
identity. -/
theorem foldl_cleanStep_fixed :
    ∀ (ps : List Pat) (t : List Char),
    (∀ p ∈ ps, p.lits = headLit p :: p.lits.tail ∧ ciContains (headLit p) t = false) →
    stripChars t = t → List.foldl cleanStep t ps = t := by
  intro ps
  induction ps with
  | nil => intro t _ _; rfl
  | cons p ps' ih =>
    intro t h hfix
    obtain ⟨hl, hc⟩ := h p (List.mem_cons_self p ps')
    have hsub : subAll p t = t := subAllFuel_id p (headLit p) p.lits.tail hl t.length t true hc
    have hstep : cleanStep t p = t := by
      unfold cleanStep subAll at hsub ⊢
      rw [hsub, hfix]
    show List.foldl cleanStep (cleanStep t p) ps' = t
    rw [hstep]
    exact ih t (fun q hq => h q (List.mem_cons_of_mem p hq)) hfix

/-- On trigger-free text the sanitizer loop reduces to a single `strip`. -/
theorem cleanCore_of_noTriggers (t : List Char) (h : noTriggers t = true) :
    List.foldl cleanStep t patterns = stripChars t := by
  have hmem : ∀ p ∈ patterns, ciContains (headLit p) t = false := by
    simp only [noTriggers, List.all_eq_true, Bool.not_eq_true'] at h
    exact h
  have hmem' : ∀ p ∈ patterns, ciContains (headLit p) (stripChars t) = false := by
    have := noTriggers_stripChars t (by
      simp only [noTriggers, List.all_eq_true, Bool.not_eq_true']
      exact hmem)
    simp only [noTriggers, List.all_eq_true, Bool.not_eq_true'] at this
    exact this
  rw [patterns_eq, List.foldl_cons]
  have h1 : cleanStep t pat1 = stripChars t := by
    have hl := patterns_lits_head pat1 (by rw [patterns_eq]; exact List.mem_cons_self _ _)
    have hsub : subAll pat1 t = t :=
      subAllFuel_id pat1 (headLit pat1) pat1.lits.tail hl t.length t true
        (hmem pat1 (by rw [patterns_eq]; exact List.mem_cons_self _ _))
    unfold cleanStep subAll at hsub ⊢
    rw [hsub]
  rw [h1]
  exact foldl_cleanStep_fixed restPats (stripChars t)
    (fun p hp =>
      ⟨patterns_lits_head p (by rw [patterns_eq]; exact List.mem_cons_of_mem _ hp),
       hmem' p (by rw [patterns_eq]; exact List.mem_cons_of_mem _ hp)⟩)
    (stripChars_idem t)

/-- C4 (amended): the sanitizer is idempotent on clean text — text in which
none of the boilerplate trigger literals occurs (case-insensitively); on
such text a single application reduces to `strip`, and `strip` is
idempotent.  (For arbitrary input the claim is false, see the
counterexample: the caret patterns only match at line starts, so removing
one occurrence can expose another that only a second application
removes.) -/
theorem sanitize_idem_of_no_triggers (x : String) (h : noTriggers x.toList = true) :
    clean_response (clean_response x) = clean_response x := by
  by_cases hx : x = ""
  · subst hx
    rfl
  · have hcx : clean_response x = String.mk (stripChars x.toList) := by
      unfold clean_response
      rw [if_neg hx, cleanCore_of_noTriggers x.toList h]
    rw [hcx]
    by_cases hy : String.mk (stripChars x.toList) = ""
    · rw [hy]
      rfl
    · have hlist : (String.mk (stripChars x.toList)).toList = stripChars x.toList := rfl
      unfold clean_response
      rw [if_neg hy, hlist, cleanCore_of_noTriggers _ (noTriggers_stripChars _ h),
        stripChars_idem]

/-- C4 witness: ordinary clean text. -/
theorem sanitize_idem_witness :
    noTriggers "Hallo Welt".toList = true ∧
    clean_response (clean_response "Hallo Welt") = clean_response "Hallo Welt" :=
  ⟨by decide, sanitize_idem_of_no_triggers "Hallo Welt" (by decide)⟩

/-- C4 counterexample: `re.sub(r"^Translation:", ...)` removes only the
line-start occurrence, exposing a second one, so
`sanitize("Translation:Translation: foo") = "Translation: foo"` while a
second application yields `"foo"`. -/
theorem sanitize_not_idem_cx :
    clean_response (clean_response "Translation:Translation: foo") ≠
      clean_response "Translation:Translation: foo" := by
  decide

/-- C5 witness: a one-file folder; the first run writes `doc1_en.txt`, the
second performs zero inference calls, and a file whose output exists is
skipped without extraction. -/
theorem resumability_witness :
    (runPipeline "_en" (fun _ _ => some "World")
      (runPipeline "_en" (fun _ _ => some "Hello") []
        [⟨"doc1.json", some (.obj [("content", .arr [.str "Hallo"])])⟩]).1
      [⟨"doc1.json", some (.obj [("content", .arr [.str "Hallo"])])⟩]).2 = 0 ∧
    processFile "_en" (fun _ _ => some "World") ["doc1_en.txt"]
      ⟨"doc1.json", some (.obj [("content", .arr [.str "Hallo"])])⟩ =
      ⟨["doc1_en.txt"], 0, false⟩ :=
  ⟨(resumability "_en" (fun _ _ => some "Hello") (fun _ _ => some "World") []
      [⟨"doc1.json", some (.obj [("content", .arr [.str "Hallo"])])⟩]).1,
   (resumability "_en" (fun _ _ => some "Hello") (fun _ _ => some "World") []
      [⟨"doc1.json", some (.obj [("content", .arr [.str "Hallo"])])⟩]).2
      ["doc1_en.txt"] ⟨"doc1.json", some (.obj [("content", .arr [.str "Hallo"])])⟩
      (by decide)⟩
